import Mathlib

/-!
Verification development for the tclcompiler bytecode writer
(`src/cmpWrite.c`, `src/cmpInt.h`).

The definitions below are a shallow embedding of the writer's pure
algorithms, translated from the C source:

* the Tcl-safe ASCII85 encoder (`encodeMap`, `A85EncodeBytes`,
  `EmitByteSequence`);
* the literal serializer (`EmitObject`);
* the post-compile bytecode rewriter (`UpdateByteCodes`,
  `ReplacePushIndex`, `ShiftByteCodes`) over an instruction-level
  model of the bytecode;
* the body unsharer (`UnshareProcBodies`);
* the formal-argument processing loop of `CompileOneProcBody`;
* the literal-table save/restore bracketing of `Compiler_CompileFile`.

Bytes are modelled as `Nat` (< 256 stated where it matters); channels as
`List Char`; Tcl result codes as `Int` (0 = TCL_OK, 1 = TCL_ERROR).
-/

namespace TclCompiler

/-! ### The safe ASCII85 alphabet (`encodeMap`, cmpWrite.c:178-264)

The table remaps the metacharacter positions of the natural ASCII85
alphabet: position 1 (was `"`) to `v`, 3 (was `$`) to `w`, 58 (was `[`)
to `x`, 59 (was `\`) to `y`, 60 (was `]`) to `|`. -/

def encodeMap : List Char :=
  ['!', 'v', '#', 'w', '%', '&', '\'', '(', ')', '*',
   '+', ',', '-', '.', '/', '0', '1', '2', '3', '4',
   '5', '6', '7', '8', '9', ':', ';', '<', '=', '>',
   '?', '@', 'A', 'B', 'C', 'D', 'E', 'F', 'G', 'H',
   'I', 'J', 'K', 'L', 'M', 'N', 'O', 'P', 'Q', 'R',
   'S', 'T', 'U', 'V', 'W', 'X', 'Y', 'Z', 'x', 'y',
   '|', '^', '_', '`', 'a', 'b', 'c', 'd', 'e', 'f',
   'g', 'h', 'i', 'j', 'k', 'l', 'm', 'n', 'o', 'p',
   'q', 'r', 's', 't', 'u']

/-- Macro `EN(c)` of cmpWrite.c:176; the argument is always `< 85` in the source. -/
def EN (n : Nat) : Char := encodeMap.getD n '!'

/-- Zero padding of a short tuple to 4 bytes (cmpWrite.c:4192-4195). -/
def pad4 (bs : List Nat) : List Nat := bs ++ List.replicate (4 - bs.length) 0

/-- Least-significant-byte-first packing of a byte tuple into a word
(cmpWrite.c:4197-4201). -/
def wordOf : List Nat → Nat
  | [] => 0
  | b :: rest => b + 256 * wordOf rest

/-- Function `A85EncodeBytes` (cmpWrite.c:4186-4234) as the list of symbols it
emits for one tuple of `numBytes = bs.length ≤ 4` bytes: `z` for an
all-zero word, otherwise the `numBytes + 1` low-order base-85 digits of
the word, least significant first. -/
def A85EncodeBytes (bs : List Nat) : List Char :=
  let word := wordOf (pad4 bs)
  if word = 0 then ['z']
  else (List.range (bs.length + 1)).map (fun i => EN (word / 85 ^ i % 85))

/-- The symbol stream produced by the loop of `EmitByteSequence`
(cmpWrite.c:1046-1067): full 4-byte tuples, then a final short tuple of
`length % 4` bytes if any. -/
def a85Stream : List Nat → List Char
  | [] => []
  | [a] => A85EncodeBytes [a]
  | [a, b] => A85EncodeBytes [a, b]
  | [a, b, c] => A85EncodeBytes [a, b, c]
  | a :: b :: c :: d :: rest => A85EncodeBytes [a, b, c, d] ++ a85Stream rest

/-- Line-wrapping performed by `A85EmitChar`/`A85Flush`
(cmpWrite.c:4252-4303): a flush after every 72 symbols writes the buffer
and a `\n`, and the final `A85Flush` of `EmitByteSequence` writes the
remaining symbols (possibly none) and a `\n`. -/
def chunk72Go : Nat → List Char → List Char
  | 0, cs => cs ++ ['\n']
  | fuel + 1, cs =>
    if cs.length < 72 then cs ++ ['\n']
    else cs.take 72 ++ '\n' :: chunk72Go fuel (cs.drop 72)

def chunk72 (cs : List Char) : List Char := chunk72Go cs.length cs

/-- Function `EmitTclSize` (cmpWrite.c:949-959): decimal text plus separator. -/
def emitTclSize (n : Nat) (sep : Char) : List Char := (toString n).toList ++ [sep]

/-- Function `EmitChar` (cmpWrite.c:916-929). -/
def emitChar (c sep : Char) : List Char := [c, sep]

/-- Function `EmitString` (cmpWrite.c:980-1001). -/
def emitString (s : String) (sep : Char) : List Char := s.toList ++ [sep]

/-- Function `EmitByteSequence` (cmpWrite.c:1033-1070): the byte count on its own
line, then the line-wrapped symbol stream. -/
def EmitByteSequence (bs : List Nat) : List Char :=
  emitTclSize bs.length '\n' ++ chunk72 (a85Stream bs)

/-! ### Reference decoder

Modelled from the spec: the loader (reader side) is not part of this
repository; §4.A of the spec fixes the format contract — `z` stands for
an all-zero tuple, a short final tuple of `k` bytes is transmitted as
`k+1` symbols, and the dropped trailing symbols are `!` (value 0). -/

/-- Modelled from the spec: inverse of the symbol table — the position of
a character in `encodeMap`. -/
def decodeChar (c : Char) : Option Nat :=
  let i := encodeMap.indexOf c
  if i < encodeMap.length then some i else none

/-- Modelled from the spec: decode `n` symbols into their values. -/
def decodeSyms : Nat → List Char → Option (List Nat)
  | 0, _ => some []
  | _ + 1, [] => none
  | n + 1, c :: rest =>
    match decodeChar c, decodeSyms n rest with
    | some v, some vs => some (v :: vs)
    | _, _ => none

/-- Base-`B` value of a little-endian digit list. -/
def unbase (B : Nat) : List Nat → Nat
  | [] => 0
  | d :: rest => d + B * unbase B rest

/-- Modelled from the spec: decode one tuple of `k` original bytes
(`1 ≤ k ≤ 4`), returning the bytes and the remaining symbol stream. -/
def a85DecodeTuple (k : Nat) (cs : List Char) : Option (List Nat × List Char) :=
  match cs with
  | [] => none
  | c :: rest =>
    if c = 'z' then some (List.replicate k 0, rest)
    else
      match decodeSyms (k + 1) (c :: rest) with
      | none => none
      | some vs =>
        let w := unbase 85 vs
        some ((List.range k).map (fun i => w / 256 ^ i % 256), (c :: rest).drop (k + 1))

/-- Modelled from the spec: decode a symbol stream known to carry `n`
bytes, consuming the whole stream. -/
def a85Decode : Nat → List Char → Option (List Nat)
  | 0, cs => if cs = [] then some [] else none
  | n + 1, cs =>
    if _h : n + 1 ≤ 3 then
      match a85DecodeTuple (n + 1) cs with
      | none => none
      | some (bs, rest) => if rest = [] then some bs else none
    else
      match a85DecodeTuple 4 cs with
      | none => none
      | some (bs, rest) =>
        match a85Decode (n + 1 - 4) rest with
        | none => none
        | some tail => some (bs ++ tail)

/-! ### Basic facts about the alphabet and digit packing -/

theorem encodeMap_length : encodeMap.length = 85 := by decide

theorem z_not_mem_encodeMap : 'z' ∉ encodeMap := by decide

set_option maxRecDepth 8000 in
theorem decodeChar_EN : ∀ d : Fin 85, decodeChar (EN d.val) = some d.val := by decide

theorem EN_mem (d : Nat) (hd : d < 85) : EN d ∈ encodeMap := by
  have h : d < encodeMap.length := by rw [encodeMap_length]; exact hd
  rw [EN, List.getD_eq_getElem _ _ h]
  exact List.getElem_mem h

theorem EN_ne_z (d : Nat) (hd : d < 85) : EN d ≠ 'z' := by
  intro h
  exact z_not_mem_encodeMap (h ▸ EN_mem d hd)

theorem wordOf_lt (bs : List Nat) (hb : ∀ b ∈ bs, b < 256) :
    wordOf bs < 256 ^ bs.length := by
  induction bs with
  | nil => simp [wordOf]
  | cons b rest ih =>
    have hb0 : b < 256 := hb b (by simp)
    have hr := ih (fun x hx => hb x (by simp [hx]))
    simp only [wordOf, List.length_cons, pow_succ]
    nlinarith

theorem wordOf_append_zeros (bs : List Nat) (k : Nat) :
    wordOf (bs ++ List.replicate k 0) = wordOf bs := by
  induction bs with
  | nil =>
    simp only [List.nil_append]
    induction k with
    | zero => rfl
    | succ m ih => simp [List.replicate_succ, wordOf, ih]
  | cons b rest ih => simp [wordOf, ih]

theorem wordOf_pad4 (bs : List Nat) : wordOf (pad4 bs) = wordOf bs :=
  wordOf_append_zeros bs _

theorem wordOf_eq_zero (bs : List Nat) (h : wordOf bs = 0) :
    bs = List.replicate bs.length 0 := by
  refine List.eq_replicate_iff.mpr ⟨rfl, ?_⟩
  induction bs with
  | nil => intro b hb; simp at hb
  | cons b rest ih =>
    simp only [wordOf] at h
    intro x hx
    rcases List.mem_cons.mp hx with hx | hx
    · omega
    · exact ih (by omega) x hx

/-- Reconstructing a word from its low `m` base-85 digits. -/
theorem unbase_digits (m : Nat) : ∀ w : Nat, w < 85 ^ m →
    unbase 85 ((List.range m).map (fun i => w / 85 ^ i % 85)) = w := by
  induction m with
  | zero => intro w hw; simp at hw; simp [hw, unbase]
  | succ k ih =>
    intro w hw
    rw [List.range_succ_eq_map]
    simp only [List.map_cons, List.map_map, unbase, pow_zero, Nat.div_one]
    have hcomp : ((fun i => w / 85 ^ i % 85) ∘ Nat.succ) =
        (fun i => (w / 85) / 85 ^ i % 85) := by
      funext i
      show w / 85 ^ (i + 1) % 85 = w / 85 / 85 ^ i % 85
      rw [pow_succ, Nat.mul_comm, ← Nat.div_div_eq_div_mul]
    rw [hcomp, ih (w / 85) (by
      rw [pow_succ] at hw
      exact Nat.div_lt_of_lt_mul (by omega))]
    exact Nat.mod_add_div w 85

/-- Extracting the bytes of a word recovers the original byte list. -/
theorem bytes_of_wordOf : ∀ bs : List Nat, (∀ b ∈ bs, b < 256) →
    (List.range bs.length).map (fun i => wordOf bs / 256 ^ i % 256) = bs := by
  intro bs
  induction bs with
  | nil => intro _; simp
  | cons b rest ih =>
    intro hb
    have hb0 : b < 256 := hb b (by simp)
    simp only [List.length_cons]
    rw [List.range_succ_eq_map]
    simp only [List.map_cons, List.map_map, pow_zero, Nat.div_one]
    have hhead : wordOf (b :: rest) % 256 = b := by
      simp [wordOf, Nat.add_mul_mod_self_left, Nat.mod_eq_of_lt hb0]
    have hdiv : wordOf (b :: rest) / 256 = wordOf rest := by
      simp only [wordOf]
      rw [Nat.add_mul_div_left _ _ (by omega : (0:Nat) < 256)]
      simp [Nat.div_eq_of_lt hb0]
    have hcomp : ((fun i => wordOf (b :: rest) / 256 ^ i % 256) ∘ Nat.succ) =
        (fun i => wordOf rest / 256 ^ i % 256) := by
      funext i
      show wordOf (b :: rest) / 256 ^ (i + 1) % 256 = wordOf rest / 256 ^ i % 256
      rw [pow_succ, Nat.mul_comm, ← Nat.div_div_eq_div_mul, hdiv]
    rw [hhead, hcomp, ih (fun x hx => hb x (by simp [hx]))]

theorem decodeSyms_map_EN (vs : List Nat) (hv : ∀ v ∈ vs, v < 85) (tail : List Char) :
    decodeSyms vs.length (vs.map EN ++ tail) = some vs := by
  induction vs with
  | nil => rfl
  | cons v rest ih =>
    have hv0 : v < 85 := hv v (by simp)
    have ih' := ih (fun x hx => hv x (by simp [hx]))
    simp only [List.map_cons, List.length_cons, List.cons_append, decodeSyms,
      List.append_eq]
    rw [decodeChar_EN ⟨v, hv0⟩, ih']

theorem pow256_le_pow85 (k : Nat) (h1 : 1 ≤ k) (h4 : k ≤ 4) :
    (256 : Nat) ^ k ≤ 85 ^ (k + 1) := by
  interval_cases k <;> norm_num

/-- Decoding one encoded tuple recovers the tuple's bytes and leaves the
rest of the stream untouched. -/
theorem a85DecodeTuple_encode (bs : List Nat) (h1 : 1 ≤ bs.length)
    (h4 : bs.length ≤ 4) (hb : ∀ b ∈ bs, b < 256) (tail : List Char) :
    a85DecodeTuple bs.length (A85EncodeBytes bs ++ tail) = some (bs, tail) := by
  rw [A85EncodeBytes]
  by_cases hz : wordOf (pad4 bs) = 0
  · have hbz : bs = List.replicate bs.length 0 := by
      refine wordOf_eq_zero bs ?_
      rw [← wordOf_pad4]; exact hz
    simp only [hz, if_pos rfl]
    simp [a85DecodeTuple, ← hbz]
  · simp only [if_neg hz]
    set w := wordOf (pad4 bs) with hw
    have hwbs : w = wordOf bs := wordOf_pad4 bs
    have hwlt : w < 85 ^ (bs.length + 1) := by
      calc w < 256 ^ bs.length := hwbs ▸ wordOf_lt bs hb
      _ ≤ 85 ^ (bs.length + 1) := pow256_le_pow85 bs.length h1 h4
    have hmap : (List.range (bs.length + 1)).map (fun i => EN (w / 85 ^ i % 85)) =
        ((List.range (bs.length + 1)).map (fun i => w / 85 ^ i % 85)).map EN := by
      rw [List.map_map]; rfl
    set vs := (List.range (bs.length + 1)).map (fun i => w / 85 ^ i % 85) with hvs
    have hvsl : vs.length = bs.length + 1 := by simp [hvs]
    have hvlt : ∀ v ∈ vs, v < 85 := by
      intro v hvm
      rw [hvs] at hvm
      obtain ⟨i, _, rfl⟩ := List.mem_map.mp hvm
      exact Nat.mod_lt _ (by omega)
    have hub : unbase 85 vs = w := unbase_digits (bs.length + 1) w hwlt
    -- the encoded stream is nonempty and starts with a symbol that is not z
    obtain ⟨v0, vrest, hvcons⟩ : ∃ v0 vrest, vs = v0 :: vrest := by
      cases hvsc : vs with
      | nil => rw [hvsc] at hvsl; simp at hvsl
      | cons x xs => exact ⟨x, xs, rfl⟩
    have hv0lt : v0 < 85 := hvlt v0 (by rw [hvcons]; simp)
    have hvrl : vrest.length = bs.length := by
      have h' := hvsl
      rw [hvcons] at h'
      simpa using h'
    rw [hmap, hvcons]
    simp only [List.map_cons, List.cons_append, a85DecodeTuple]
    rw [if_neg (EN_ne_z v0 hv0lt)]
    have hsy : decodeSyms (bs.length + 1)
        (EN v0 :: (List.map EN vrest ++ tail)) = some (v0 :: vrest) := by
      have h' := decodeSyms_map_EN vs hvlt tail
      rw [hvcons] at h'
      simp only [List.map_cons, List.length_cons, List.cons_append, hvrl] at h'
      exact h'
    rw [hsy]
    have hdrop : (EN v0 :: (List.map EN vrest ++ tail)).drop (bs.length + 1) = tail := by
      have hlen : bs.length = (List.map EN vrest).length := by simp [hvrl]
      rw [List.drop_succ_cons, hlen, List.drop_left]
    have hbytes : (List.range bs.length).map
        (fun i => unbase 85 (v0 :: vrest) / 256 ^ i % 256) = bs := by
      rw [← hvcons, hub, hwbs]
      exact bytes_of_wordOf bs hb
    simp [hbytes, hdrop]

/-- C1: decoding the writer's encoded stream recovers the original byte
sequence, for every length (the loader-side decoder is modelled from the
spec's format contract). -/
theorem a85_roundtrip (bs : List Nat) (hb : ∀ b ∈ bs, b < 256) :
    a85Decode bs.length (a85Stream bs) = some bs := by
  induction bs using a85Stream.induct with
  | case1 => simp [a85Stream, a85Decode]
  | case2 a =>
    have h := a85DecodeTuple_encode [a] (by simp) (by simp) (by simpa using hb) []
    rw [List.append_nil] at h
    norm_num at h
    simp [a85Stream, a85Decode, h]
  | case3 a b =>
    have h := a85DecodeTuple_encode [a, b] (by simp) (by simp) (by simpa using hb) []
    rw [List.append_nil] at h
    norm_num at h
    simp [a85Stream, a85Decode, h]
  | case4 a b c =>
    have h := a85DecodeTuple_encode [a, b, c] (by simp) (by simp) (by simpa using hb) []
    rw [List.append_nil] at h
    norm_num at h
    simp [a85Stream, a85Decode, h]
  | case5 a b c d rest ih =>
    have hball : ∀ x ∈ [a, b, c, d], x < 256 := by
      intro x hx
      apply hb
      simp only [List.mem_cons] at hx ⊢
      tauto
    have h := a85DecodeTuple_encode [a, b, c, d] (by simp) (by simp) hball (a85Stream rest)
    have hrest : ∀ x ∈ rest, x < 256 := by
      intro x hx; exact hb x (by simp [hx])
    have ihr := ih hrest
    norm_num at h
    simp only [a85Stream, List.length_cons]
    show a85Decode (rest.length + 3 + 1) _ = _
    rw [a85Decode]
    have h3 : ¬ (rest.length + 3 + 1 ≤ 3) := by omega
    simp only [dif_neg h3]
    have h4 : rest.length + 3 + 1 - 4 = rest.length := by omega
    rw [h, h4]
    simp [ihr]

/-- Witness for `a85_roundtrip` at a concrete byte sequence of length
5 (not a multiple of 4, with an all-zero leading tuple byte). -/
theorem a85_roundtrip_witness :
    (∀ b ∈ [0, 1, 255, 116, 99], b < 256) ∧
      a85Decode 5 (a85Stream [0, 1, 255, 116, 99]) = some [0, 1, 255, 116, 99] :=
  ⟨by decide, a85_roundtrip [0, 1, 255, 116, 99] (by decide)⟩

/-- C6 counterexample: the all-zero short tuple `[0]` encodes to the
single symbol `z` (cmpWrite.c:4203-4205), not to `k+1 = 2` symbols, so
the unconditional symbol-count claim is false. -/
theorem a85_short_tuple_count_counterexample :
    ¬ (∀ bs : List Nat, 1 ≤ bs.length → bs.length < 4 →
        (A85EncodeBytes bs).length = bs.length + 1) := by
  intro hcl
  have h2 := hcl [0] (by norm_num) (by norm_num)
  have h1 : (A85EncodeBytes [0]).length = 1 := by decide
  simp [h1] at h2

/-- C6 amended: a short final tuple of `k` bytes (`1 ≤ k < 4`) emits
exactly `k+1` symbols when it is not all-zero; an all-zero short tuple
emits the single symbol `z`. -/
theorem a85_short_tuple_count (bs : List Nat) (_h1 : 1 ≤ bs.length)
    (_h4 : bs.length < 4) :
    (wordOf bs ≠ 0 → (A85EncodeBytes bs).length = bs.length + 1) ∧
      (wordOf bs = 0 → A85EncodeBytes bs = ['z']) := by
  constructor
  · intro hnz
    rw [A85EncodeBytes]
    rw [wordOf_pad4] at *
    simp [hnz]
  · intro hz
    rw [A85EncodeBytes]
    rw [wordOf_pad4] at *
    simp [hz]

/-- Witness for `a85_short_tuple_count` at the one-byte tuple `[7]`. -/
theorem a85_short_tuple_count_witness :
    1 ≤ [7].length ∧ [7].length < 4 ∧
      ((wordOf [7] ≠ 0 → (A85EncodeBytes [7]).length = [7].length + 1) ∧
        (wordOf [7] = 0 → A85EncodeBytes [7] = ['z'])) :=
  ⟨by decide, by decide, a85_short_tuple_count [7] (by decide) (by decide)⟩

/-- The Tcl metacharacters excluded from the safe alphabet
(cmpWrite.c:169-175). -/
def tclSpecialChars : List Char := ['"', '$', '\x7b', '\x7d', '[', ']', '\\']

theorem mem_A85EncodeBytes (bs : List Nat) (c : Char)
    (hc : c ∈ A85EncodeBytes bs) : c = 'z' ∨ c ∈ encodeMap := by
  rw [A85EncodeBytes] at hc
  by_cases hz : wordOf (pad4 bs) = 0
  · rw [if_pos hz] at hc
    left
    simpa using hc
  · rw [if_neg hz] at hc
    right
    obtain ⟨i, _, rfl⟩ := List.mem_map.mp hc
    exact EN_mem _ (Nat.mod_lt _ (by omega))

/-- C8: every symbol the encoder produces, for every input byte
sequence, avoids the Tcl metacharacters `" $ { } [ ] \`. -/
theorem a85Stream_safe (bs : List Nat) (c : Char) (hc : c ∈ a85Stream bs) :
    c ∉ tclSpecialChars := by
  have hsafe : ∀ x ∈ 'z' :: encodeMap, x ∉ tclSpecialChars := by decide
  induction bs using a85Stream.induct with
  | case1 => simp [a85Stream] at hc
  | case2 a =>
    rcases mem_A85EncodeBytes _ _ hc with h | h
    · exact h ▸ hsafe 'z' (by simp)
    · exact hsafe c (by simp [h])
  | case3 a b =>
    rcases mem_A85EncodeBytes _ _ hc with h | h
    · exact h ▸ hsafe 'z' (by simp)
    · exact hsafe c (by simp [h])
  | case4 a b c' =>
    rcases mem_A85EncodeBytes _ _ hc with h | h
    · exact h ▸ hsafe 'z' (by simp)
    · exact hsafe c (by simp [h])
  | case5 a b c' d rest ih =>
    rw [a85Stream] at hc
    rcases List.mem_append.mp hc with h | h
    · rcases mem_A85EncodeBytes _ _ h with h' | h'
      · exact h' ▸ hsafe 'z' (by simp)
      · exact hsafe c (by simp [h'])
    · exact ih h

/-- Witness for `a85Stream_safe`: the first symbol of the encoding of
byte 115 (`s`). -/
theorem a85Stream_safe_witness :
    '?' ∈ a85Stream [115] ∧ '?' ∉ tclSpecialChars :=
  ⟨by decide, a85Stream_safe [115] '?' (by decide)⟩

/-! ### Literal serialization (`EmitObject`, cmpWrite.c:1202-1261)

A `Tcl_Obj` is dispatched on its runtime type pointer: `cmpIntType`,
`cmpDoubleType`, `cmpByteCodeType`, `cmpProcBodyType`, and a catch-all
branch for every other type (including plain strings).  The recursive
bytecode/procbody payloads (`EmitByteCode`, `EmitProcBody`) are carried
opaquely, as the already-rendered channel output. -/

inductive TclObjV where
  /-- internal rep is `cmpIntType`; the field is the object's string rep -/
  | vInt (rep : String)
  /-- internal rep is `cmpDoubleType`; the field is the object's string rep -/
  | vDouble (rep : String)
  /-- internal rep is `cmpByteCodeType`; payload = `EmitByteCode` output -/
  | vByteCode (payload : List Char)
  /-- internal rep is `cmpProcBodyType`; payload = `EmitProcBody` output -/
  | vProcBody (payload : List Char)
  /-- any other type, including plain strings; the field is the byte
  sequence of the object's string rep -/
  | vOther (bytes : List Nat)
deriving DecidableEq

/-- Function `EmitObject` (cmpWrite.c:1202-1261).  Only the int and double
branches reach the tail that writes `typeCode`; every other
non-bytecode, non-procbody object takes the final `else` branch, which
emits the `x` tag and an ASCII85 byte-sequence field. -/
def emitObject : TclObjV → List Char
  | .vInt rep => emitChar 'i' '\n' ++ emitString rep '\n'
  | .vDouble rep => emitChar 'd' '\n' ++ emitString rep '\n'
  | .vByteCode payload => emitChar 'c' '\n' ++ payload
  | .vProcBody payload => emitChar 'p' '\n' ++ payload
  | .vOther bytes => emitChar 'x' '\n' ++ EmitByteSequence bytes

/-- C5 counterexample: the plain-string literal `set` (bytes
`[115, 101, 116]`) is not serialized with the `s` tag — its record does
not begin with `s` and is not `s 3\nset\n`; the serializer emits the
`x`-tagged ASCII85 form instead. -/
theorem emitObject_string_not_s_tagged :
    (emitObject (.vOther [115, 101, 116])).head? ≠ some 's' ∧
      emitObject (.vOther [115, 101, 116]) ≠ "s 3\nset\n".toList := by
  decide

/-- C5 amended: a literal whose runtime type is not one of the
recognized internal-rep types (in particular a plain string) is
serialized with the one-character tag `x`, a length line, and the
line-wrapped safe-ASCII85 encoding of its bytes; for the script
`set x 1`, the records for `set` and `x` are `x\n3\nndD-\n` and
`x\n1\nDv\n`. -/
theorem emitObject_string_x_tagged :
    (∀ bytes : List Nat,
        emitObject (.vOther bytes) = 'x' :: '\n' :: EmitByteSequence bytes) ∧
      emitObject (.vOther [115, 101, 116]) = "x\n3\nndD-\n".toList ∧
      emitObject (.vOther [120]) = "x\n1\nDv\n".toList := by
  refine ⟨fun bytes => rfl, by decide, by decide⟩

/-! ### Instruction-level model of the bytecode

`cmpWrite.c` walks raw instruction bytes using the frontend's static
instruction table (`opCodesTablePtr[*pc].numBytes`).  We model decoded
instructions: the short/long push and jump forms the rewriter
distinguishes, plus an opaque constructor for every other opcode
carrying its operand-byte count.  `jump1`/`jump4` cover the
unconditional and both conditional forms through `JumpKind`. -/

inductive JumpKind where
  | uncond
  | ifTrue
  | ifFalse
deriving DecidableEq

inductive Instr where
  | push1 (idx : Nat)
  | push4 (idx : Nat)
  | jump1 (jk : JumpKind) (off : Int)
  | jump4 (jk : JumpKind) (off : Int)
  | other (op : Nat) (operandBytes : Nat)
deriving DecidableEq

/-- Instruction size in bytes (`numBytes` of the instruction table). -/
def isize : Instr → Nat
  | .push1 _ => 2
  | .push4 _ => 5
  | .jump1 _ _ => 2
  | .jump4 _ _ => 5
  | .other _ operandBytes => 1 + operandBytes

/-- Expansion contribution of one instruction in the shift-table pass
(cmpWrite.c:3266-3276): `push1` and the three `jump1` forms grow by 3. -/
def growBy : Instr → Nat
  | .push1 _ => 3
  | .jump1 _ _ => 3
  | _ => 0

/-- The short forms (`push1`, `jump1`, `jump_true1`, `jump_false1`). -/
def isShort : Instr → Bool
  | .push1 _ => true
  | .jump1 _ _ => true
  | _ => false

/-- Check `INST_JUMP1 <= *pc <= INST_JUMP_FALSE4` (cmpWrite.c:3202): all six
jump opcodes. -/
def isJump : Instr → Bool
  | .jump1 _ _ => true
  | .jump4 _ _ => true
  | _ => false

def codeLen : List Instr → Nat
  | [] => 0
  | i :: rest => isize i + codeLen rest

/-- The jump scan of cmpWrite.c:3200-3207. -/
def jumpsCount : List Instr → Nat
  | [] => 0
  | i :: rest => (if isJump i then 1 else 0) + jumpsCount rest

/-- The value of `offset` after the shift-table pass
(cmpWrite.c:3263-3278): total expansion. -/
def totalGrow : List Instr → Nat
  | [] => 0
  | i :: rest => growBy i + totalGrow rest

/-- The shift table `delta` (cmpWrite.c:3263-3278) read at byte offset
`o`: the accumulated expansion to the left of the instruction containing
`o`.  (The C array holds defined values only at instruction boundaries;
at boundaries this function agrees with it.) -/
def deltaGo : List Instr → Int → Nat → Nat
  | [], _, acc => acc
  | i :: rest, o, acc =>
    if o < (isize i : Int) then acc else deltaGo rest (o - isize i) (acc + growBy i)

def deltaAt (code : List Instr) (o : Int) : Nat := deltaGo code o 0

/-- The instruction starting at byte offset `o`, if `o` is an
instruction boundary. -/
def instrAt : List Instr → Nat → Option Instr
  | [], _ => none
  | i :: rest, o =>
    if o = 0 then some i
    else if o < isize i then none
    else instrAt rest (o - isize i)

/-- Replace the instruction starting at byte offset `o` (used to model
in-place operand rewriting). -/
def setInstrAt : List Instr → Nat → Instr → List Instr
  | [], _, _ => []
  | i :: rest, o, x =>
    if o = 0 then x :: rest
    else if o < isize i then i :: rest
    else i :: setInstrAt rest (o - isize i) x

/-- One step of the expansion copy loop (cmpWrite.c:3307-3411):
`push1 → push4`, `jumpN1 off → jumpN4 (off + Δ[target] − Δ[here])`,
`jump4` gets the same offset correction (a zero correction is the
verbatim copy of the source's `goto copy`), everything else is copied
unchanged. -/
def expandOne (orig : List Instr) (o : Int) : Instr → Instr
  | .push1 n => .push4 n
  | .push4 n => .push4 n
  | .jump1 jk d =>
    .jump4 jk (d + ((deltaAt orig (o + d) : Int) - (deltaAt orig o : Int)))
  | .jump4 jk d =>
    .jump4 jk (d + ((deltaAt orig (o + d) : Int) - (deltaAt orig o : Int)))
  | .other op nb => .other op nb

/-- The expansion copy loop over the whole code (cmpWrite.c:3295-3413). -/
def expandGo (orig : List Instr) : List Instr → Int → List Instr
  | [], _ => []
  | i :: rest, o => expandOne orig o i :: expandGo orig rest (o + isize i)

def expandCode (code : List Instr) : List Instr := expandGo code code 0

/-- One exception range (`ExceptionRange`); `isLoop` distinguishes
`LOOP_EXCEPTION_RANGE` from `CATCH_EXCEPTION_RANGE`. -/
structure ExcRange where
  isLoop : Bool
  nestingLevel : Nat
  codeOffset : Nat
  numCodeBytes : Nat
  breakOffset : Int
  continueOffset : Int
  catchOffset : Int
deriving DecidableEq

structure CmdLoc where
  codeOffset : Nat
  numCodeBytes : Nat
deriving DecidableEq

/-- Struct `ProcBodyInfo` (cmpInt.h:172-195). -/
structure ProcBodyInfo where
  nameIndex : Int
  argsIndex : Int
  bodyOrigIndex : Int
  bodyNewIndex : Int
  procOffset : Int
  bodyOffset : Int
  commandIndex : Nat
deriving DecidableEq

/-- The parts of the `CompileEnv` the rewriter touches: the code, the
number of literal-table entries, the exception ranges and the
command-location map. -/
structure CompEnv where
  code : List Instr
  litLen : Nat
  excRanges : List ExcRange
  cmdLocs : List CmdLoc
deriving DecidableEq

/-- The exception-range fix of the expansion path (cmpWrite.c:3458-3480),
exactly as written: `numCodeBytes += Δ[codeOffset + numCodeBytes]` (note:
the source does not subtract `Δ[codeOffset]`), then
`codeOffset += Δ[codeOffset]`, then the type-specific target offsets each
shifted by `Δ` at their own values. -/
def patchExcRange (c : List Instr) (r : ExcRange) : ExcRange :=
  let nb := r.numCodeBytes + deltaAt c ((r.codeOffset + r.numCodeBytes : Nat) : Int)
  let co := r.codeOffset + deltaAt c (r.codeOffset : Int)
  if r.isLoop then
    { r with numCodeBytes := nb, codeOffset := co,
             breakOffset := r.breakOffset + (deltaAt c r.breakOffset : Int),
             continueOffset := r.continueOffset + (deltaAt c r.continueOffset : Int) }
  else
    { r with numCodeBytes := nb, codeOffset := co,
             catchOffset := r.catchOffset + (deltaAt c r.catchOffset : Int) }

/-- The command-location fix of the expansion path (cmpWrite.c:3440-3450):
shift the offset by `Δ`, re-read the instruction size at the new offset
in the expanded code. -/
def patchCmdLoc (c newCode : List Instr) (l : CmdLoc) : CmdLoc :=
  let co := l.codeOffset + deltaAt c (l.codeOffset : Int)
  { codeOffset := co, numCodeBytes := (instrAt newCode co).elim 0 isize }

/-- The proc-site fix of the expansion path (cmpWrite.c:3487-3494). -/
def patchSite (c : List Instr) (s : ProcBodyInfo) : ProcBodyInfo :=
  { s with procOffset := s.procOffset + (deltaAt c s.procOffset : Int),
           bodyOffset := s.bodyOffset + (deltaAt c s.bodyOffset : Int) }

/-- The `procNameObjIndex >= 255` branch of `UpdateByteCodes`
(cmpWrite.c:3193-3539): if the code contains a jump and the computed
total expansion is nonzero, install the expanded code and patch the
side tables. -/
def runExpansion (env : CompEnv) (sites : List ProcBodyInfo) :
    CompEnv × List ProcBodyInfo :=
  if jumpsCount env.code = 0 then (env, sites)
  else if totalGrow env.code = 0 then (env, sites)
  else
    let c := env.code
    ({ env with code := expandCode c,
                cmdLocs := env.cmdLocs.map (patchCmdLoc c (expandCode c)),
                excRanges := env.excRanges.map (patchExcRange c) },
     sites.map (patchSite c))

/-- The side-table fixes of `ShiftByteCodes` (cmpWrite.c:3691-3797); the
3-byte code shift itself is implicit in the instruction list (a `push1`
slot becomes a `push4` slot).  `cmdLocs.mapIdx`-style handling: the
entry at `commandIndex` grows, later entries shift. -/
def shiftTables (env : CompEnv) (commandIndex startOffset shiftCount : Nat) : CompEnv :=
  { env with
    cmdLocs := (List.range env.cmdLocs.length).zip env.cmdLocs |>.map (fun p =>
      if p.1 = commandIndex then { p.2 with numCodeBytes := p.2.numCodeBytes + shiftCount }
      else if commandIndex < p.1 then { p.2 with codeOffset := p.2.codeOffset + shiftCount }
      else p.2),
    excRanges := env.excRanges.map (fun r =>
      let r1 :=
        if startOffset < r.codeOffset then { r with codeOffset := r.codeOffset + shiftCount }
        else if startOffset < r.codeOffset + r.numCodeBytes then
          { r with numCodeBytes := r.numCodeBytes + shiftCount }
        else r
      if r1.isLoop then
        { r1 with
          breakOffset := if (startOffset : Int) < r1.breakOffset
            then r1.breakOffset + shiftCount else r1.breakOffset,
          continueOffset := if (startOffset : Int) < r1.continueOffset
            then r1.continueOffset + shiftCount else r1.continueOffset }
      else
        { r1 with catchOffset := if (startOffset : Int) < r1.catchOffset
            then r1.catchOffset + shiftCount else r1.catchOffset }) }

/-- Function `ReplacePushIndex` (cmpWrite.c:3618-3670): patch the operand of the
push at byte offset `off` to `newIndex`; a `push1` whose new operand
does not fit becomes a `push4` with a 3-byte shift (`ShiftByteCodes`);
a non-push opcode is a panic (`none`).  Returns the shift amount. -/
def replacePushIndex (env : CompEnv) (commandIndex off newIndex : Nat) :
    Option (CompEnv × Nat) :=
  match instrAt env.code off with
  | some (.push1 _) =>
    if newIndex < 255 then
      some ({ env with code := setInstrAt env.code off (.push1 newIndex) }, 0)
    else
      some (shiftTables { env with code := setInstrAt env.code off (.push4 newIndex) }
              commandIndex off 3, 3)
  | some (.push4 _) =>
    some ({ env with code := setInstrAt env.code off (.push4 newIndex) }, 0)
  | _ => none

/-- The final sweep of `UpdateByteCodes` (cmpWrite.c:3551-3596): correct
each site's offsets by the running shift, replace the `proc`-name push
with literal `k`, and, when the body was unshared, the body push with
`bodyNewIndex`. -/
def sweep (k : Nat) : List ProcBodyInfo → CompEnv → Int →
    Option (CompEnv × List ProcBodyInfo)
  | [], env, _ => some (env, [])
  | s :: rest, env, off =>
    if s.bodyNewIndex = -1 then
      match sweep k rest env off with
      | none => none
      | some (e, l) =>
        some (e, { s with procOffset := s.procOffset + off,
                          bodyOffset := s.bodyOffset + off } :: l)
    else
      match replacePushIndex env s.commandIndex (s.procOffset + off).toNat k with
      | none => none
      | some (env2, d) =>
        if s.bodyNewIndex ≠ s.bodyOrigIndex then
          match replacePushIndex env2 s.commandIndex
              (s.bodyOffset + off + (d : Int)).toNat s.bodyNewIndex.toNat with
          | none => none
          | some (env3, d2) =>
            match sweep k rest env3 (off + d + d2) with
            | none => none
            | some (e, l) =>
              some (e, { s with procOffset := s.procOffset + off,
                                bodyOffset := s.bodyOffset + off + (d : Int) } :: l)
        else
          match sweep k rest env2 (off + d) with
          | none => none
          | some (e, l) =>
            some (e, { s with procOffset := s.procOffset + off,
                              bodyOffset := s.bodyOffset + off + (d : Int) } :: l)

/-- Function `UpdateByteCodes` (cmpWrite.c:3126-3597).  Case `numCompiledBodies = 0`
returns immediately; otherwise the loader-proc name literal is appended
(its index `k` is the old table length), the global expansion runs when
`k ≥ 255`, and the final sweep rewrites the proc-site pushes. -/
def updateByteCodes (numCompiledBodies : Nat) (sites : List ProcBodyInfo)
    (env : CompEnv) : Option (CompEnv × List ProcBodyInfo) :=
  if numCompiledBodies = 0 then some (env, sites)
  else
    let k := env.litLen
    let env1 := { env with litLen := env.litLen + 1 }
    let p := if 255 ≤ k then runExpansion env1 sites else (env1, sites)
    sweep k p.2 p.1 0

/-! ### C3: the global expansion eliminates every short form -/

theorem expandOne_no_short (orig : List Instr) (o : Int) (i : Instr) :
    isShort (expandOne orig o i) = false := by
  cases i <;> rfl

theorem expandGo_no_short (orig : List Instr) :
    ∀ (rest : List Instr) (o : Int), ∀ i ∈ expandGo orig rest o, isShort i = false := by
  intro rest
  induction rest with
  | nil => intro o i hi; simp [expandGo] at hi
  | cons x xs ih =>
    intro o i hi
    rw [expandGo] at hi
    rcases List.mem_cons.mp hi with h | h
    · rw [h]
      exact expandOne_no_short orig o x
    · exact ih (o + isize x) i h

theorem expandCode_no_short (code : List Instr) :
    ∀ i ∈ expandCode code, isShort i = false :=
  expandGo_no_short code code 0

theorem instrAt_mem : ∀ (code : List Instr) (o : Nat) (i : Instr),
    instrAt code o = some i → i ∈ code := by
  intro code
  induction code with
  | nil => intro o i h; simp [instrAt] at h
  | cons x xs ih =>
    intro o i h
    rw [instrAt] at h
    by_cases h0 : o = 0
    · rw [if_pos h0] at h
      simp at h
      simp [h]
    · rw [if_neg h0] at h
      by_cases h1 : o < isize x
      · rw [if_pos h1] at h; simp at h
      · rw [if_neg h1] at h
        exact List.mem_cons_of_mem x (ih _ i h)

theorem setInstrAt_mem : ∀ (code : List Instr) (o : Nat) (x j : Instr),
    j ∈ setInstrAt code o x → j ∈ code ∨ j = x := by
  intro code
  induction code with
  | nil => intro o x j h; simp [setInstrAt] at h
  | cons y ys ih =>
    intro o x j h
    rw [setInstrAt] at h
    by_cases h0 : o = 0
    · rw [if_pos h0] at h
      rcases List.mem_cons.mp h with h | h
      · right; exact h
      · left; exact List.mem_cons_of_mem y h
    · rw [if_neg h0] at h
      by_cases h1 : o < isize y
      · rw [if_pos h1] at h
        left; exact h
      · rw [if_neg h1] at h
        rcases List.mem_cons.mp h with h | h
        · left; simp [h]
        · rcases ih _ x j h with h' | h'
          · left; exact List.mem_cons_of_mem y h'
          · right; exact h'

theorem shiftTables_code (env : CompEnv) (ci so sc : Nat) :
    (shiftTables env ci so sc).code = env.code := rfl

theorem replacePushIndex_no_short (env : CompEnv) (ci off ni : Nat)
    (env2 : CompEnv) (d : Nat)
    (hns : ∀ i ∈ env.code, isShort i = false)
    (h : replacePushIndex env ci off ni = some (env2, d)) :
    ∀ i ∈ env2.code, isShort i = false := by
  rw [replacePushIndex] at h
  cases hat : instrAt env.code off with
  | none => rw [hat] at h; simp at h
  | some instr =>
    rw [hat] at h
    cases instr with
    | push1 m =>
      exact absurd (hns _ (instrAt_mem env.code off _ hat)) (by simp [isShort])
    | push4 m =>
      simp at h
      obtain ⟨henv, _⟩ := h
      intro i hi
      rw [← henv] at hi
      rcases setInstrAt_mem env.code off (.push4 ni) i hi with h' | h'
      · exact hns i h'
      · simp [h', isShort]
    | jump1 jk o' => simp at h
    | jump4 jk o' => simp at h
    | other op nb => simp at h

theorem sweep_no_short (k : Nat) :
    ∀ (sites : List ProcBodyInfo) (env : CompEnv) (off : Int)
      (env' : CompEnv) (sites' : List ProcBodyInfo),
    (∀ i ∈ env.code, isShort i = false) →
    sweep k sites env off = some (env', sites') →
    ∀ i ∈ env'.code, isShort i = false := by
  intro sites
  induction sites with
  | nil =>
    intro env off env' sites' hns h
    rw [sweep] at h
    simp at h
    obtain ⟨h1, _⟩ := h
    rw [← h1]; exact hns
  | cons s rest ih =>
    intro env off env' sites' hns h
    rw [sweep] at h
    by_cases hm1 : s.bodyNewIndex = -1
    · rw [if_pos hm1] at h
      cases hrec : sweep k rest env off with
      | none => rw [hrec] at h; simp at h
      | some p =>
        rw [hrec] at h
        obtain ⟨e, l⟩ := p
        simp at h
        obtain ⟨h1, _⟩ := h
        rw [← h1]
        exact ih env off e l hns hrec
    · rw [if_neg hm1] at h
      cases hrp : replacePushIndex env s.commandIndex (s.procOffset + off).toNat k with
      | none => rw [hrp] at h; simp at h
      | some p =>
        rw [hrp] at h
        obtain ⟨env2, d⟩ := p
        dsimp only at h
        have hns2 : ∀ i ∈ env2.code, isShort i = false :=
          replacePushIndex_no_short env _ _ k env2 d hns hrp
        by_cases hne : s.bodyNewIndex ≠ s.bodyOrigIndex
        · rw [if_pos hne] at h
          cases hrp2 : replacePushIndex env2 s.commandIndex
              (s.bodyOffset + off + (d : Int)).toNat s.bodyNewIndex.toNat with
          | none => rw [hrp2] at h; simp at h
          | some p2 =>
            rw [hrp2] at h
            obtain ⟨env3, d2⟩ := p2
            dsimp only at h
            have hns3 : ∀ i ∈ env3.code, isShort i = false :=
              replacePushIndex_no_short env2 _ _ _ env3 d2 hns2 hrp2
            cases hrec : sweep k rest env3 (off + d + d2) with
            | none => rw [hrec] at h; simp at h
            | some pr =>
              rw [hrec] at h
              obtain ⟨e, l⟩ := pr
              simp at h
              obtain ⟨h1, _⟩ := h
              rw [← h1]
              exact ih env3 (off + d + d2) e l hns3 hrec
        · rw [if_neg hne] at h
          cases hrec : sweep k rest env2 (off + d) with
          | none => rw [hrec] at h; simp at h
          | some pr =>
            rw [hrec] at h
            obtain ⟨e, l⟩ := pr
            simp at h
            obtain ⟨h1, _⟩ := h
            rw [← h1]
            exact ih env2 (off + d) e l hns2 hrec

theorem jumpsCount_pos (code : List Instr) (jk : JumpKind) (d : Int)
    (h : Instr.jump1 jk d ∈ code) : jumpsCount code ≠ 0 := by
  induction code with
  | nil => simp at h
  | cons x xs ih =>
    rw [jumpsCount]
    rcases List.mem_cons.mp h with h' | h'
    · rw [← h']
      simp [isJump]
    · have := ih h'
      omega

theorem totalGrow_pos (code : List Instr) (jk : JumpKind) (d : Int)
    (h : Instr.jump1 jk d ∈ code) : totalGrow code ≠ 0 := by
  induction code with
  | nil => simp at h
  | cons x xs ih =>
    rw [totalGrow]
    rcases List.mem_cons.mp h with h' | h'
    · rw [← h']
      simp [growBy]
    · have := ih h'
      omega

/-- C3: if the loader-proc literal index `k` is at least 255 and the
code contains a short jump, then after `UpdateByteCodes` no `push1`,
`jump1`, `jump_true1` or `jump_false1` remains in the rewritten code. -/
theorem updateByteCodes_no_short (n : Nat) (sites : List ProcBodyInfo)
    (env env' : CompEnv) (sites' : List ProcBodyInfo)
    (hn : n ≠ 0) (hk : 255 ≤ env.litLen)
    (hj : ∃ jk d, Instr.jump1 jk d ∈ env.code)
    (h : updateByteCodes n sites env = some (env', sites')) :
    ∀ i ∈ env'.code, isShort i = false := by
  obtain ⟨jk, d, hjm⟩ := hj
  have hjc : jumpsCount env.code ≠ 0 := jumpsCount_pos env.code jk d hjm
  have htg : totalGrow env.code ≠ 0 := totalGrow_pos env.code jk d hjm
  simp only [updateByteCodes, runExpansion, if_neg hn, if_pos hk,
    if_neg hjc, if_neg htg] at h
  exact sweep_no_short env.litLen _ _ 0 env' sites'
    (fun i hi => expandCode_no_short env.code i hi) h

/-- Concrete bytecode for the `updateByteCodes_no_short` witness: the
four pushes and the invoke of a `proc` call, a short jump, and a final
done instruction. -/
def envC3 : CompEnv :=
  { code := [.push1 0, .push1 1, .push1 2, .push1 3, .other 6 1,
             .jump1 .uncond 2, .other 0 0],
    litLen := 300, excRanges := [], cmdLocs := [] }

def siteC3 : ProcBodyInfo :=
  { nameIndex := 1, argsIndex := 2, bodyOrigIndex := 3, bodyNewIndex := 3,
    procOffset := 0, bodyOffset := 6, commandIndex := 0 }

def envC3out : CompEnv :=
  { code := [.push4 300, .push4 1, .push4 2, .push4 3, .other 6 1,
             .jump4 .uncond 5, .other 0 0],
    litLen := 301, excRanges := [], cmdLocs := [] }

def siteC3out : ProcBodyInfo :=
  { nameIndex := 1, argsIndex := 2, bodyOrigIndex := 3, bodyNewIndex := 3,
    procOffset := 0, bodyOffset := 15, commandIndex := 0 }

/-- Witness for `updateByteCodes_no_short` on a concrete environment
with `k = 300` and one short jump. -/
theorem updateByteCodes_no_short_witness :
    (1 ≠ 0) ∧ 255 ≤ envC3.litLen ∧ Instr.jump1 .uncond 2 ∈ envC3.code ∧
      isShort (Instr.jump4 .uncond 5) = false :=
  ⟨by decide, by decide, by decide,
   updateByteCodes_no_short 1 [siteC3] envC3 envC3out [siteC3out]
     (by decide) (by decide) ⟨.uncond, 2, by decide⟩ (by decide)
     (Instr.jump4 .uncond 5) (by decide)⟩

/-! ### C2: the exception-range patch of the expansion path -/

/-- Concrete bytecode exhibiting the exception-range patch: four
`push1`s and an invoke (a proc call), then a short jump covered by a
catch range, then done. -/
def codeC2 : List Instr :=
  [.push1 0, .push1 1, .push1 2, .push1 3, .other 6 1, .jump1 .uncond 2, .other 0 0]

/-- A catch range covering the jump instruction: bytes `[10, 12)`,
catch target 12. -/
def rangeC2 : ExcRange :=
  { isLoop := false, nestingLevel := 0, codeOffset := 10, numCodeBytes := 2,
    breakOffset := -1, continueOffset := -1, catchOffset := 12 }

/-- C2: evaluating the source's exception-range patch
(cmpWrite.c:3464-3465) on a concrete range.  Here `Δ[start] = Δ[10] = 12`
and `Δ[end] = Δ[12] = 15`.  The code computes
`numCodeBytes += Δ[end]` (2 + 15 = 17), not the claimed
`numCodeBytes += Δ[end] − Δ[start]` (2 + 3 = 5); the resulting range
`[22, 39)` runs past the end of the 28-byte expanded code, violating the
image invariant `code_offset + code_length ≤ len(code)`. -/
theorem patchExcRange_adds_delta_end_only :
    patchExcRange codeC2 rangeC2 =
      { isLoop := false, nestingLevel := 0, codeOffset := 22, numCodeBytes := 17,
        breakOffset := -1, continueOffset := -1, catchOffset := 27 } ∧
    ((rangeC2.numCodeBytes : Int) +
        ((deltaAt codeC2 ((rangeC2.codeOffset + rangeC2.numCodeBytes : Nat) : Int) : Int) -
          (deltaAt codeC2 (rangeC2.codeOffset : Int) : Int)) = 5) ∧
    (patchExcRange codeC2 rangeC2).numCodeBytes ≠ 5 ∧
    codeLen (expandCode codeC2) = 28 ∧
    (patchExcRange codeC2 rangeC2).codeOffset +
        (patchExcRange codeC2 rangeC2).numCodeBytes > codeLen (expandCode codeC2) := by
  decide

/-! ### C10: the shift-table read indices of the expansion path -/

/-- The `delta` reads a jump instruction at byte offset `o` performs
(cmpWrite.c:3320-3322 and 3362-3364): its own offset and its target. -/
def jumpReadsOf (o : Int) : Instr → List (Int × Int)
  | .jump1 _ d => [(o, o + d)]
  | .jump4 _ d => [(o, o + d)]
  | .push1 _ => []
  | .push4 _ => []
  | .other _ _ => []

def jumpInfoGo : List Instr → Int → List (Int × Int)
  | [], _ => []
  | i :: rest, o => jumpReadsOf o i ++ jumpInfoGo rest (o + isize i)

/-- The (offset, target) pairs of all jump instructions in the code. -/
def jumpInfo (code : List Instr) : List (Int × Int) := jumpInfoGo code 0

/-- The `delta` indices read when patching one exception range
(cmpWrite.c:3464-3475): the range end `codeOffset + numCodeBytes`, the
range start, and the type-specific target offsets. -/
def excReads (r : ExcRange) : List Int :=
  [((r.codeOffset + r.numCodeBytes : Nat) : Int), (r.codeOffset : Int)] ++
    (if r.isLoop then [r.breakOffset, r.continueOffset] else [r.catchOffset])

/-- The `delta` index read when patching one command location
(cmpWrite.c:3447). -/
def cmdLocReads (l : CmdLoc) : List Int := [(l.codeOffset : Int)]

/-- The `delta` indices read when patching one proc site
(cmpWrite.c:3491-3492). -/
def siteReads (s : ProcBodyInfo) : List Int := [s.procOffset, s.bodyOffset]

/-- Every index at which the expansion path of `UpdateByteCodes` reads
the shift table `delta` (which is allocated with exactly
`len(code)` entries, cmpWrite.c:3212). -/
def deltaReadIndices (env : CompEnv) (sites : List ProcBodyInfo) : List Int :=
  (jumpInfo env.code).foldr (fun p acc => [p.1, p.2] ++ acc) [] ++
    (env.excRanges.foldr (fun r acc => excReads r ++ acc) [] ++
      (env.cmdLocs.foldr (fun l acc => cmdLocReads l ++ acc) [] ++
        sites.foldr (fun s acc => siteReads s ++ acc) []))

/-- Push operands are valid literal indices (spec §3). -/
def pushIdxOK (litLen : Nat) : Instr → Bool
  | .push1 i => i < litLen
  | .push4 i => i < litLen
  | _ => true

/-- Offset `t` lies within `[0, len(code))` and on an instruction boundary
(spec §3). -/
def boundaryOK (code : List Instr) (t : Int) : Bool :=
  0 ≤ t && t < (codeLen code : Int) && (instrAt code t.toNat).isSome

/-- The bytecode-image invariants of spec §3: valid push operands, jump
targets within `[0, len(code))` on instruction boundaries, exception
ranges with `code_offset + code_length ≤ len(code)` and targets within
the code, command locations within the code. -/
def wfEnv (env : CompEnv) : Bool :=
  env.code.all (pushIdxOK env.litLen) &&
    (jumpInfo env.code).all (fun p => boundaryOK env.code p.2) &&
    env.excRanges.all (fun r =>
      decide (r.codeOffset + r.numCodeBytes ≤ codeLen env.code) &&
        (if r.isLoop then
          boundaryOK env.code r.breakOffset && boundaryOK env.code r.continueOffset
         else boundaryOK env.code r.catchOffset)) &&
    env.cmdLocs.all (fun l => decide (l.codeOffset < codeLen env.code))

/-- Bytecode for the C10 counterexample: a push, a short jump, done;
with a catch range whose end equals `len(code)` (allowed by the §3
invariant `code_offset + code_length ≤ len(code)`). -/
def envC10 : CompEnv :=
  { code := [.push1 0, .jump1 .uncond 2, .other 0 0],
    litLen := 300,
    excRanges := [{ isLoop := false, nestingLevel := 0, codeOffset := 2,
                    numCodeBytes := 3, breakOffset := -1, continueOffset := -1,
                    catchOffset := 4 }],
    cmdLocs := [] }

/-- C10 counterexample: a well-formed image on the expansion path
(`k ≥ 255`, a short jump present, nonzero total growth) whose catch
range ends exactly at `len(code) = 5`; patching it reads
`delta[codeOffset + numCodeBytes] = delta[5]`, an index that is not
strictly less than `len(code)` — one past the 5-entry table. -/
theorem deltaReadIndices_counterexample :
    wfEnv envC10 = true ∧ 255 ≤ envC10.litLen ∧
      jumpsCount envC10.code ≠ 0 ∧ totalGrow envC10.code ≠ 0 ∧
      (codeLen envC10.code : Int) ∈ deltaReadIndices envC10 [] ∧
      ¬ ((codeLen envC10.code : Int) < (codeLen envC10.code : Int)) := by
  decide

theorem mem_foldr_append {α β : Type} (f : α → List β) (l : List α) (b : β)
    (h : b ∈ l.foldr (fun x acc => f x ++ acc) []) : ∃ x ∈ l, b ∈ f x := by
  induction l with
  | nil => simp at h
  | cons x xs ih =>
    rw [List.foldr_cons] at h
    rcases List.mem_append.mp h with h' | h'
    · exact ⟨x, by simp, h'⟩
    · obtain ⟨y, hy, hb⟩ := ih h'
      exact ⟨y, by simp [hy], hb⟩

theorem jumpInfoGo_own_bounds (rest : List Instr) :
    ∀ (o : Int) (p : Int × Int), p ∈ jumpInfoGo rest o →
      o ≤ p.1 ∧ p.1 + 1 ≤ o + codeLen rest := by
  induction rest with
  | nil => intro o p hp; simp [jumpInfoGo] at hp
  | cons i rest ih =>
    intro o p hp
    rw [jumpInfoGo] at hp
    have hclen : (codeLen (i :: rest) : Int) = (isize i : Int) + codeLen rest := by
      show ((isize i + codeLen rest : Nat) : Int) = _
      push_cast
      ring
    rcases List.mem_append.mp hp with h | h
    · cases i with
      | jump1 jk d =>
        simp only [jumpReadsOf, List.mem_singleton] at h
        rw [h, hclen]
        have : (0 : Int) ≤ (codeLen rest : Int) := Int.ofNat_nonneg _
        simp only [isize]
        omega
      | jump4 jk d =>
        simp only [jumpReadsOf, List.mem_singleton] at h
        rw [h, hclen]
        have : (0 : Int) ≤ (codeLen rest : Int) := Int.ofNat_nonneg _
        simp only [isize]
        omega
      | push1 n => simp [jumpReadsOf] at h
      | push4 n => simp [jumpReadsOf] at h
      | other op nb => simp [jumpReadsOf] at h
    · have hih := ih (o + isize i) p h
      have hsz : (0 : Int) ≤ (isize i : Int) := Int.ofNat_nonneg _
      rw [hclen]
      omega

theorem boundaryOK_bounds (code : List Instr) (t : Int)
    (h : boundaryOK code t = true) : 0 ≤ t ∧ t < (codeLen code : Int) := by
  rw [boundaryOK] at h
  simp only [Bool.and_eq_true, decide_eq_true_eq] at h
  exact ⟨h.1.1, h.1.2⟩

/-- C10 amended: under the spec §3 invariants strengthened so that every
exception range ends strictly before `len(code)` (which holds for
frontend output, where the final `done` instruction lies outside every
range) and with the proc-site offsets inside the code, every read of the
shift table `delta` during the global expansion uses an index `i` with
`0 ≤ i < len(code)`; with the documented invariant
`code_offset + code_length ≤ len(code)` alone, the range-end read can
index one past the table. -/
theorem deltaReadIndices_in_bounds (env : CompEnv) (sites : List ProcBodyInfo)
    (hwf : wfEnv env = true)
    (hstrict : ∀ r ∈ env.excRanges, r.codeOffset + r.numCodeBytes < codeLen env.code)
    (hsites : ∀ s ∈ sites,
      (0 ≤ s.procOffset ∧ s.procOffset < (codeLen env.code : Int)) ∧
        (0 ≤ s.bodyOffset ∧ s.bodyOffset < (codeLen env.code : Int))) :
    ∀ i ∈ deltaReadIndices env sites, 0 ≤ i ∧ i < (codeLen env.code : Int) := by
  rw [wfEnv] at hwf
  simp only [Bool.and_eq_true, List.all_eq_true] at hwf
  obtain ⟨⟨⟨_hpush, hjmp⟩, hexc⟩, hcmd⟩ := hwf
  intro i hi
  rw [deltaReadIndices] at hi
  rcases List.mem_append.mp hi with h | h
  · -- jump reads: own offset or target
    obtain ⟨p, hp, hm⟩ := mem_foldr_append _ _ _ h
    have hown := jumpInfoGo_own_bounds env.code 0 p hp
    have htgt := boundaryOK_bounds env.code p.2 (by
      have := hjmp p hp
      simpa using this)
    simp only [List.cons_append, List.nil_append, List.mem_cons,
      List.mem_singleton, List.not_mem_nil, or_false] at hm
    rcases hm with rfl | rfl
    · omega
    · exact htgt
  rcases List.mem_append.mp h with h | h
  · -- exception-range reads
    obtain ⟨r, hr, hm⟩ := mem_foldr_append _ _ _ h
    have hs := hstrict r hr
    have he := hexc r hr
    simp only [Bool.and_eq_true, decide_eq_true_eq] at he
    rw [excReads] at hm
    rcases List.mem_append.mp hm with hm | hm
    · simp only [List.mem_cons, List.mem_singleton, List.not_mem_nil, or_false] at hm
      rcases hm with rfl | rfl
      · constructor
        · exact Int.ofNat_nonneg _
        · exact_mod_cast hs
      · constructor
        · exact Int.ofNat_nonneg _
        · have : r.codeOffset < codeLen env.code := by omega
          exact_mod_cast this
    · by_cases hl : r.isLoop
      · rw [if_pos hl] at hm
        rw [if_pos hl] at he
        simp only [Bool.and_eq_true] at he
        simp only [List.mem_cons, List.mem_singleton, List.not_mem_nil, or_false] at hm
        rcases hm with rfl | rfl
        · exact boundaryOK_bounds _ _ he.2.1
        · exact boundaryOK_bounds _ _ he.2.2
      · rw [if_neg hl] at hm
        rw [if_neg hl] at he
        simp only [List.mem_singleton, List.not_mem_nil, or_false] at hm
        rw [hm]
        exact boundaryOK_bounds _ _ he.2
  rcases List.mem_append.mp h with h | h
  · -- command-location reads
    obtain ⟨l, hl, hm⟩ := mem_foldr_append _ _ _ h
    have := hcmd l hl
    simp only [decide_eq_true_eq] at this
    rw [cmdLocReads] at hm
    simp only [List.mem_singleton, List.not_mem_nil, or_false] at hm
    rw [hm]
    constructor
    · exact Int.ofNat_nonneg _
    · exact_mod_cast this
  · -- proc-site reads
    obtain ⟨s, hs, hm⟩ := mem_foldr_append _ _ _ h
    have := hsites s hs
    rw [siteReads] at hm
    simp only [List.mem_cons, List.mem_singleton, List.not_mem_nil, or_false] at hm
    rcases hm with rfl | rfl
    · exact this.1
    · exact this.2

/-- Environment for the `deltaReadIndices_in_bounds` witness: the same
shape as `envC10` but with the catch range ending strictly inside the
code. -/
def envC10w : CompEnv :=
  { code := [.push1 0, .jump1 .uncond 2, .other 0 0],
    litLen := 300,
    excRanges := [{ isLoop := false, nestingLevel := 0, codeOffset := 2,
                    numCodeBytes := 2, breakOffset := -1, continueOffset := -1,
                    catchOffset := 4 }],
    cmdLocs := [{ codeOffset := 0, numCodeBytes := 2 }] }

def siteC10w : ProcBodyInfo :=
  { nameIndex := 0, argsIndex := 0, bodyOrigIndex := 0, bodyNewIndex := 0,
    procOffset := 0, bodyOffset := 2, commandIndex := 0 }

/-- Witness for `deltaReadIndices_in_bounds` at a concrete read index. -/
theorem deltaReadIndices_in_bounds_witness :
    wfEnv envC10w = true ∧
      (4 : Int) ∈ deltaReadIndices envC10w [siteC10w] ∧
      0 ≤ (4 : Int) ∧ (4 : Int) < (codeLen envC10w.code : Int) :=
  ⟨by decide, by decide,
   deltaReadIndices_in_bounds envC10w [siteC10w] (by decide) (by decide)
     (by decide) 4 (by decide)⟩

/-! ### C4: `UnshareProcBodies` (cmpWrite.c:2993-3070)

The object-reference table (`ObjRefInfo`, keyed by original literal
index) is modelled as a function `Int → Option ObjRefInfo`;
`TclAddLiteralObj` appends at the end of the literal table, so a fresh
copy receives index = current table length; `TclHideLiteral` is
modelled as recording the hidden index. -/

structure ObjRefInfo where
  numReferences : Nat
  numProcReferences : Nat
  numUnshares : Nat
deriving DecidableEq

def RefTable : Type := Int → Option ObjRefInfo

def updRef (t : RefTable) (k : Int) (v : ObjRefInfo) : RefTable :=
  fun x => if x = k then some v else t x

/-- The mutable state `UnshareProcBodies` threads: the reference table,
the literal-table length, the hidden literal indices, and the
`infoPtr->numUnshares` counter. -/
structure UState where
  table : RefTable
  litLen : Nat
  hidden : List Int
  numUnshares : Nat

/-- One iteration of the loop of `UnshareProcBodies`
(cmpWrite.c:3011-3069) on one proc site: sites whose body push was not
recognized are skipped; a missing table entry is a panic (`none`); an
unshared literal (fewer than 2 references) is only hidden; a shared
literal with only proc references and no unshare yet is hidden and its
`numUnshares` set to 1; otherwise a copy is appended and its index
stored in `bodyNewIndex`. -/
def unshareOne (st : UState) (s : ProcBodyInfo) : Option (UState × ProcBodyInfo) :=
  if s.bodyOrigIndex = -1 then some (st, s)
  else
    match st.table s.bodyOrigIndex with
    | none => none
    | some info =>
      if info.numReferences < 2 then
        some ({ st with hidden := s.bodyNewIndex :: st.hidden }, s)
      else if info.numReferences = info.numProcReferences ∧ info.numUnshares < 1 then
        some ({ st with hidden := s.bodyNewIndex :: st.hidden,
                        table := updRef st.table s.bodyOrigIndex
                          { info with numUnshares := 1 } }, s)
      else
        some ({ st with
                table := updRef st.table s.bodyOrigIndex
                  { info with numUnshares := info.numUnshares + 1 },
                litLen := st.litLen + 1,
                numUnshares := st.numUnshares + 1 },
              { s with bodyNewIndex := (st.litLen : Int) })

def unshareRun : UState → List ProcBodyInfo → Option (UState × List ProcBodyInfo)
  | st, [] => some (st, [])
  | st, s :: rest =>
    match unshareOne st s with
    | none => none
    | some (st1, s1) =>
      match unshareRun st1 rest with
      | none => none
      | some (stf, l) => some (stf, s1 :: l)

/-- Function `UnshareProcBodies`: run the loop from a fresh per-compilation state
(`infoPtr->numUnshares = 0`), returning the rewritten sites, the final
literal-table length, and the hidden indices. -/
def unshareProcBodies (t : RefTable) (litLen : Nat) (sites : List ProcBodyInfo) :
    Option (List ProcBodyInfo × Nat × List Int) :=
  (unshareRun ⟨t, litLen, [], 0⟩ sites).map (fun p => (p.2, p.1.litLen, p.1.hidden))

theorem unshareOne_litLen (st : UState) (s : ProcBodyInfo) (st1 : UState)
    (s1 : ProcBodyInfo) (h : unshareOne st s = some (st1, s1)) :
    st.litLen ≤ st1.litLen := by
  rw [unshareOne] at h
  by_cases hm : s.bodyOrigIndex = -1
  · rw [if_pos hm] at h
    simp only [Option.some.injEq, Prod.mk.injEq] at h
    rw [← h.1]
  · rw [if_neg hm] at h
    cases htb : st.table s.bodyOrigIndex with
    | none => rw [htb] at h; simp at h
    | some info =>
      rw [htb] at h
      dsimp only at h
      by_cases h2 : info.numReferences < 2
      · rw [if_pos h2] at h
        simp only [Option.some.injEq, Prod.mk.injEq] at h
        rw [← h.1]
      · rw [if_neg h2] at h
        by_cases h3 : info.numReferences = info.numProcReferences ∧ info.numUnshares < 1
        · rw [if_pos h3] at h
          simp only [Option.some.injEq, Prod.mk.injEq] at h
          rw [← h.1]
        · rw [if_neg h3] at h
          simp only [Option.some.injEq, Prod.mk.injEq] at h
          rw [← h.1]
          exact Nat.le_succ _

theorem unshareRun_litLen : ∀ (l : List ProcBodyInfo) (st stf : UState)
    (L : List ProcBodyInfo), unshareRun st l = some (stf, L) →
    st.litLen ≤ stf.litLen := by
  intro l
  induction l with
  | nil =>
    intro st stf L h
    rw [unshareRun] at h
    simp only [Option.some.injEq, Prod.mk.injEq] at h
    rw [← h.1]
  | cons s rest ih =>
    intro st stf L h
    rw [unshareRun] at h
    cases h1 : unshareOne st s with
    | none => rw [h1] at h; simp at h
    | some p =>
      rw [h1] at h
      obtain ⟨st1, s1⟩ := p
      dsimp only at h
      cases h2 : unshareRun st1 rest with
      | none => rw [h2] at h; simp at h
      | some q =>
        rw [h2] at h
        obtain ⟨stf', l'⟩ := q
        simp only [Option.some.injEq, Prod.mk.injEq] at h
        calc st.litLen ≤ st1.litLen := unshareOne_litLen st s st1 s1 h1
        _ ≤ stf'.litLen := ih st1 stf' l' h2
        _ = stf.litLen := by rw [h.1]

/-- The table invariant: each entry's reference counts agree with the
initial table and its `numUnshares` is 0 exactly when no site with that
body literal has been processed yet (`seen`). -/
def TableInv (t0 : RefTable) (seen : Int → Prop) (st : UState) : Prop :=
  ∀ o info, o ≠ -1 → t0 o = some info →
    ∃ u, st.table o = some ⟨info.numReferences, info.numProcReferences, u⟩ ∧
      (2 ≤ info.numReferences → (u = 0 ↔ ¬ seen o))

theorem unshareOne_inv (t0 : RefTable) (seen : Int → Prop) (st st1 : UState)
    (s0 s1 : ProcBodyInfo) (h1 : unshareOne st s0 = some (st1, s1))
    (hinv : TableInv t0 seen st) :
    TableInv t0 (fun o => seen o ∨ s0.bodyOrigIndex = o) st1 := by
  intro o info ho hto
  obtain ⟨u, htb, hiff⟩ := hinv o info ho hto
  rw [unshareOne] at h1
  by_cases hm : s0.bodyOrigIndex = -1
  · rw [if_pos hm] at h1
    simp only [Option.some.injEq, Prod.mk.injEq] at h1
    refine ⟨u, by rw [← h1.1]; exact htb, ?_⟩
    intro hge
    rw [hiff hge]
    have hne : s0.bodyOrigIndex ≠ o := by rw [hm]; exact fun hh => ho hh.symm
    constructor
    · rintro hn (hs | hs)
      · exact hn hs
      · exact hne hs
    · intro hn hs
      exact hn (Or.inl hs)
  · rw [if_neg hm] at h1
    cases htb0 : st.table s0.bodyOrigIndex with
    | none => rw [htb0] at h1; simp at h1
    | some info0 =>
      rw [htb0] at h1
      dsimp only at h1
      by_cases ho0 : s0.bodyOrigIndex = o
      · -- the processed site's literal is this very key
        have hinfo0 : info0 = ⟨info.numReferences, info.numProcReferences, u⟩ := by
          rw [ho0] at htb0
          rw [htb0] at htb
          exact Option.some.inj htb
        subst hinfo0
        dsimp only at h1
        by_cases h2 : info.numReferences < 2
        · rw [if_pos h2] at h1
          simp only [Option.some.injEq, Prod.mk.injEq] at h1
          refine ⟨u, by rw [← h1.1]; exact htb, ?_⟩
          intro hge
          omega
        · rw [if_neg h2] at h1
          by_cases h3 : info.numReferences = info.numProcReferences ∧ u < 1
          · rw [if_pos h3] at h1
            simp only [Option.some.injEq, Prod.mk.injEq] at h1
            refine ⟨1, ?_, ?_⟩
            · rw [← h1.1]
              show updRef st.table s0.bodyOrigIndex _ o = _
              rw [updRef, if_pos ho0.symm]
            · intro _
              constructor
              · intro hc; omega
              · intro hn
                exact absurd (Or.inr ho0) hn
          · rw [if_neg h3] at h1
            simp only [Option.some.injEq, Prod.mk.injEq] at h1
            refine ⟨u + 1, ?_, ?_⟩
            · rw [← h1.1]
              show updRef st.table s0.bodyOrigIndex _ o = _
              rw [updRef, if_pos ho0.symm]
            · intro _
              constructor
              · intro hc; omega
              · intro hn
                exact absurd (Or.inr ho0) hn
      · -- a different key: its entry is untouched
        have hkeep : ∀ v, updRef st.table s0.bodyOrigIndex v o = st.table o := by
          intro v
          rw [updRef, if_neg (fun hh => ho0 hh.symm)]
        have hiffnew : 2 ≤ info.numReferences →
            (u = 0 ↔ ¬ (seen o ∨ s0.bodyOrigIndex = o)) := by
          intro hge
          rw [hiff hge]
          constructor
          · rintro hn (hs | hs)
            · exact hn hs
            · exact ho0 hs
          · intro hn hs
            exact hn (Or.inl hs)
        by_cases h2 : info0.numReferences < 2
        · rw [if_pos h2] at h1
          simp only [Option.some.injEq, Prod.mk.injEq] at h1
          exact ⟨u, by rw [← h1.1]; exact htb, hiffnew⟩
        · rw [if_neg h2] at h1
          by_cases h3 : info0.numReferences = info0.numProcReferences ∧ info0.numUnshares < 1
          · rw [if_pos h3] at h1
            simp only [Option.some.injEq, Prod.mk.injEq] at h1
            refine ⟨u, ?_, hiffnew⟩
            rw [← h1.1]
            show updRef st.table s0.bodyOrigIndex _ o = _
            rw [hkeep]
            exact htb
          · rw [if_neg h3] at h1
            simp only [Option.some.injEq, Prod.mk.injEq] at h1
            refine ⟨u, ?_, hiffnew⟩
            rw [← h1.1]
            show updRef st.table s0.bodyOrigIndex _ o = _
            rw [hkeep]
            exact htb

/-- The per-site outcome of the unsharer, relative to a `seen` predicate
recording which body literals were already processed before this run. -/
theorem unshareRun_spec (t0 : RefTable) (len0 : Nat) :
    ∀ (sites : List ProcBodyInfo) (seen : Int → Prop) (st stf : UState)
      (sitesF : List ProcBodyInfo),
    unshareRun st sites = some (stf, sitesF) →
    len0 ≤ st.litLen →
    TableInv t0 seen st →
    (∀ s ∈ sites, s.bodyNewIndex = s.bodyOrigIndex) →
    ∀ j s, sites.get? j = some s → s.bodyOrigIndex ≠ -1 →
      ∀ info, t0 s.bodyOrigIndex = some info →
      ∃ s', sitesF.get? j = some s' ∧
        ((info.numReferences < 2 → s'.bodyNewIndex = s.bodyOrigIndex) ∧
         (2 ≤ info.numReferences → info.numReferences = info.numProcReferences →
           ((¬ seen s.bodyOrigIndex ∧
               ∀ s'' ∈ sites.take j, s''.bodyOrigIndex ≠ s.bodyOrigIndex) →
              s'.bodyNewIndex = s.bodyOrigIndex) ∧
           ((seen s.bodyOrigIndex ∨
               ∃ s'' ∈ sites.take j, s''.bodyOrigIndex = s.bodyOrigIndex) →
              (st.litLen : Int) ≤ s'.bodyNewIndex ∧
                s'.bodyNewIndex < (stf.litLen : Int))) ∧
         (2 ≤ info.numReferences → info.numReferences ≠ info.numProcReferences →
           (st.litLen : Int) ≤ s'.bodyNewIndex ∧
             s'.bodyNewIndex < (stf.litLen : Int))) := by
  intro sites
  induction sites with
  | nil =>
    intro seen st stf sitesF hrun hlen hinv hidx j s hj
    simp at hj
  | cons s0 rest ih =>
    intro seen st stf sitesF hrun hlen hinv hidx j s hj hne info hti
    rw [unshareRun] at hrun
    cases h1 : unshareOne st s0 with
    | none => rw [h1] at hrun; simp at hrun
    | some p =>
      rw [h1] at hrun
      obtain ⟨st1, s1⟩ := p
      dsimp only at hrun
      cases h2 : unshareRun st1 rest with
      | none => rw [h2] at hrun; simp at hrun
      | some q =>
        rw [h2] at hrun
        obtain ⟨stf', l⟩ := q
        simp only [Option.some.injEq, Prod.mk.injEq] at hrun
        obtain ⟨hstf, hsf⟩ := hrun
        subst hstf
        cases j with
        | zero =>
          have hs0 : s = s0 := Eq.symm (by simpa using hj)
          subst hs0
          refine ⟨s1, by rw [← hsf]; rfl, ?_⟩
          have hnew0 : s.bodyNewIndex = s.bodyOrigIndex := hidx s (by simp)
          rw [unshareOne, if_neg hne] at h1
          obtain ⟨u, htb, hiff⟩ := hinv s.bodyOrigIndex info hne hti
          rw [htb] at h1
          dsimp only at h1
          have hmono : st1.litLen ≤ stf'.litLen := unshareRun_litLen rest st1 stf' l h2
          by_cases hr2 : info.numReferences < 2
          · rw [if_pos hr2] at h1
            simp only [Option.some.injEq, Prod.mk.injEq] at h1
            refine ⟨?_, ?_, ?_⟩
            · intro _
              rw [← h1.2, hnew0]
            · intro hge
              omega
            · intro hge
              omega
          · rw [if_neg hr2] at h1
            by_cases h3 : info.numReferences = info.numProcReferences ∧ u < 1
            · rw [if_pos h3] at h1
              simp only [Option.some.injEq, Prod.mk.injEq] at h1
              refine ⟨?_, ?_, ?_⟩
              · intro hlt
                exact absurd hlt hr2
              · intro hge _
                refine ⟨fun _ => by rw [← h1.2, hnew0], ?_⟩
                rintro (hseen | ⟨s'', hs'', _⟩)
                · have := (hiff hge).mp (by omega)
                  exact absurd hseen this
                · simp at hs''
              · intro _ hrp
                exact absurd h3.1 hrp
            · rw [if_neg h3] at h1
              simp only [Option.some.injEq, Prod.mk.injEq] at h1
              have hfresh : s1.bodyNewIndex = (st.litLen : Int) := by rw [← h1.2]
              have hupper : (st.litLen : Int) < (stf'.litLen : Int) := by
                have : st1.litLen = st.litLen + 1 := by rw [← h1.1]
                have := hmono
                omega
              refine ⟨?_, ?_, ?_⟩
              · intro hlt
                exact absurd hlt hr2
              · intro hge hrp
                refine ⟨?_, ?_⟩
                · rintro ⟨hnseen, _⟩
                  have hu : ¬ u < 1 := fun hu1 => h3 ⟨hrp, hu1⟩
                  have : ¬ ¬ seen s.bodyOrigIndex := by
                    rw [← hiff hge]
                    omega
                  exact absurd hnseen this
                · intro _
                  rw [hfresh]
                  exact ⟨le_refl _, hupper⟩
              · intro _ _
                rw [hfresh]
                exact ⟨le_refl _, hupper⟩
        | succ j' =>
          have hj' : rest.get? j' = some s := by simpa using hj
          have hlen1 : len0 ≤ st1.litLen :=
            le_trans hlen (unshareOne_litLen st s0 st1 s1 h1)
          have hinv1 : TableInv t0 (fun o => seen o ∨ s0.bodyOrigIndex = o) st1 :=
            unshareOne_inv t0 seen st st1 s0 s1 h1 hinv
          have hidx1 : ∀ x ∈ rest, x.bodyNewIndex = x.bodyOrigIndex := by
            intro x hx
            exact hidx x (by simp [hx])
          obtain ⟨s', hgs, hp1, hp2, hp3⟩ :=
            ih (fun o => seen o ∨ s0.bodyOrigIndex = o) st1 stf' l h2 hlen1 hinv1
              hidx1 j' s hj' hne info hti
          have hmono1 : (st.litLen : Int) ≤ (st1.litLen : Int) := by
            exact_mod_cast unshareOne_litLen st s0 st1 s1 h1
          refine ⟨s', by rw [← hsf]; simpa using hgs, hp1, ?_, ?_⟩
          · intro hge hrp
            obtain ⟨hfirst, hlater⟩ := hp2 hge hrp
            refine ⟨?_, ?_⟩
            · rintro ⟨hnseen, htake⟩
              have htk : s0 ∈ (s0 :: rest).take (j' + 1) := by
                simp [List.take_succ_cons]
              refine hfirst ⟨?_, ?_⟩
              · rintro (hs | hs)
                · exact hnseen hs
                · exact htake s0 htk hs
              · intro s'' hs''
                exact htake s'' (by simp [List.take_succ_cons, hs''])
            · rintro (hseen | ⟨s'', hs'', heq⟩)
              · have := hlater (Or.inl (Or.inl hseen))
                exact ⟨le_trans hmono1 this.1, this.2⟩
              · rw [List.take_succ_cons] at hs''
                rcases List.mem_cons.mp hs'' with rfl | hs''
                · have := hlater (Or.inl (Or.inr heq))
                  exact ⟨le_trans hmono1 this.1, this.2⟩
                · have := hlater (Or.inr ⟨s'', hs'', heq⟩)
                  exact ⟨le_trans hmono1 this.1, this.2⟩
          · intro hge hrp
            have := hp3 hge hrp
            exact ⟨le_trans hmono1 this.1, this.2⟩

/-- C4: the per-site outcome of `UnshareProcBodies`.  For each
recognized site (`bodyOrigIndex ≠ -1`): an unshared body literal keeps
`bodyNewIndex = bodyOrigIndex`; a shared all-proc-referenced literal
keeps the first site in place and gives each later site a fresh index
appended beyond the original table; a literal with any non-proc
reference gives every site (the first included) a fresh appended
index. -/
theorem unshareProcBodies_spec (t0 : RefTable) (len0 : Nat)
    (sites sitesF : List ProcBodyInfo) (lenF : Nat) (hiddenF : List Int)
    (hrun : unshareProcBodies t0 len0 sites = some (sitesF, lenF, hiddenF))
    (hinit : ∀ o info, o ≠ -1 → t0 o = some info → info.numUnshares = 0)
    (hidx : ∀ s ∈ sites, s.bodyNewIndex = s.bodyOrigIndex) :
    ∀ j s, sites.get? j = some s → s.bodyOrigIndex ≠ -1 →
      ∀ info, t0 s.bodyOrigIndex = some info →
      ∃ s', sitesF.get? j = some s' ∧
        ((info.numReferences < 2 → s'.bodyNewIndex = s.bodyOrigIndex) ∧
         (2 ≤ info.numReferences → info.numReferences = info.numProcReferences →
           ((∀ s'' ∈ sites.take j, s''.bodyOrigIndex ≠ s.bodyOrigIndex) →
              s'.bodyNewIndex = s.bodyOrigIndex) ∧
           ((∃ s'' ∈ sites.take j, s''.bodyOrigIndex = s.bodyOrigIndex) →
              (len0 : Int) ≤ s'.bodyNewIndex ∧ s'.bodyNewIndex < (lenF : Int))) ∧
         (2 ≤ info.numReferences → info.numReferences ≠ info.numProcReferences →
           (len0 : Int) ≤ s'.bodyNewIndex ∧ s'.bodyNewIndex < (lenF : Int))) := by
  rw [unshareProcBodies] at hrun
  cases hr : unshareRun ⟨t0, len0, [], 0⟩ sites with
  | none => rw [hr] at hrun; simp at hrun
  | some p =>
    rw [hr] at hrun
    obtain ⟨stf, L⟩ := p
    rw [show ((some (stf, L)).map (fun p => (p.2, p.1.litLen, p.1.hidden)) :
        Option (List ProcBodyInfo × Nat × List Int)) =
        some (L, stf.litLen, stf.hidden) from rfl] at hrun
    simp only [Option.some.injEq, Prod.mk.injEq] at hrun
    obtain ⟨hL, hlen, _⟩ := hrun
    intro j s hj hne info hti
    have hinv0 : TableInv t0 (fun _ => False) ⟨t0, len0, [], 0⟩ := by
      intro o info' ho hto
      refine ⟨info'.numUnshares, ?_, ?_⟩
      · show t0 o = _
        rw [hto]
      · intro _
        rw [hinit o info' ho hto]
        simp
    obtain ⟨s', hgs, hp1, hp2, hp3⟩ :=
      unshareRun_spec t0 len0 sites (fun _ => False) ⟨t0, len0, [], 0⟩ stf L hr
        (le_refl _) hinv0 hidx j s hj hne info hti
    refine ⟨s', by rw [← hL]; exact hgs, hp1, ?_, ?_⟩
    · intro hge hrp
      obtain ⟨hfirst, hlater⟩ := hp2 hge hrp
      refine ⟨?_, ?_⟩
      · intro htake
        exact hfirst ⟨not_false, htake⟩
      · intro hex
        have := hlater (Or.inr hex)
        rw [← hlen]
        exact this
    · intro hge hrp
      have := hp3 hge hrp
      rw [← hlen]
      exact this

/-- Reference table for the `unshareProcBodies_spec` witness: literal 3
is a body literal with 2 references, both proc references, no unshares
yet. -/
def t0C4 : RefTable := fun o => if o = 3 then some ⟨2, 2, 0⟩ else none

def siteC4a : ProcBodyInfo :=
  { nameIndex := 1, argsIndex := 2, bodyOrigIndex := 3, bodyNewIndex := 3,
    procOffset := 0, bodyOffset := 6, commandIndex := 0 }

def siteC4b : ProcBodyInfo :=
  { nameIndex := 1, argsIndex := 2, bodyOrigIndex := 3, bodyNewIndex := 3,
    procOffset := 10, bodyOffset := 16, commandIndex := 1 }

def siteC4bOut : ProcBodyInfo :=
  { nameIndex := 1, argsIndex := 2, bodyOrigIndex := 3, bodyNewIndex := 5,
    procOffset := 10, bodyOffset := 16, commandIndex := 1 }

/-- Witness for `unshareProcBodies_spec`: two sites sharing body literal
3 (all references proc references, table length 5): the first keeps
index 3, the second receives the fresh appended index 5. -/
theorem unshareProcBodies_spec_witness :
    unshareProcBodies t0C4 5 [siteC4a, siteC4b] =
        some ([siteC4a, siteC4bOut], 6, [3]) ∧
      (5 : Int) ≤ siteC4bOut.bodyNewIndex ∧
      siteC4bOut.bodyNewIndex < (6 : Int) ∧
      siteC4a.bodyNewIndex = siteC4a.bodyOrigIndex := by
  have hrun : unshareProcBodies t0C4 5 [siteC4a, siteC4b] =
      some ([siteC4a, siteC4bOut], 6, [3]) := by decide
  have hinit : ∀ o info, o ≠ -1 → t0C4 o = some info → info.numUnshares = 0 := by
    intro o info _ h
    simp only [t0C4] at h
    by_cases ho : o = 3
    · rw [if_pos ho] at h
      cases h
      rfl
    · rw [if_neg ho] at h
      exact absurd h (by simp)
  obtain ⟨s', hgs, _, hp2, _⟩ :=
    unshareProcBodies_spec t0C4 5 [siteC4a, siteC4b] [siteC4a, siteC4bOut] 6 [3]
      hrun hinit (by decide) 1 siteC4b (by decide) (by decide) ⟨2, 2, 0⟩ (by decide)
  have hs' : siteC4bOut = s' := by simpa using hgs
  have hb := (hp2 (by decide) (by decide)).2 ⟨siteC4a, by decide, by decide⟩
  rw [← hs'] at hb
  exact ⟨hrun, hb.1, hb.2, by decide⟩

/-! ### C7: the formal-argument loop of `CompileOneProcBody`
(cmpWrite.c:2651-2769)

Each argument specifier comes from `Tcl_SplitList`: a raw string and its
fields.  The loop rejects specifiers with more than two fields, unnamed
arguments, and formal parameters written as array elements — but the
array-element branch (cmpWrite.c:2718-2731) returns `result`, which at
that point still holds `TCL_OK` from the successful `Tcl_SplitList`,
unlike the sibling branches which set `result = TCL_ERROR`. -/

def TCL_OK : Int := 0
def TCL_ERROR : Int := 1

structure ArgLocal where
  name : String
  frameIndex : Nat
  hasDefault : Bool
  defaultValue : String
deriving DecidableEq

inductive ArgsResult where
  /-- all specifiers processed, locals built -/
  | success (locals : List ArgLocal)
  /-- the loop returned early with this Tcl result code and interp
  result message -/
  | earlyReturn (code : Int) (interpResult : String)
deriving DecidableEq

/-- The scalar check of cmpWrite.c:2707-2732: the name contains a `(`
and its last character is `)`. -/
def isArrayElemName (name : String) : Bool :=
  name.toList.contains '(' && name.toList.getLast? == some ')'

/-- The argument-processing loop of `CompileOneProcBody`
(cmpWrite.c:2651-2769); `i` is the frame index of the next local.  Each
input pair is `(raw specifier, its Tcl_SplitList fields)`. -/
def processArgSpecs (fullName : String) : List (String × List String) → Nat → ArgsResult
  | [], _ => .success []
  | (raw, fields) :: rest, i =>
    if 2 < fields.length then
      .earlyReturn TCL_ERROR
        ("compilation of procedure \"" ++ fullName ++
          "\" failed: too many fields in argument specifier \"" ++ raw ++ "\"")
    else
      match fields.head? with
      | none =>
        .earlyReturn TCL_ERROR
          ("compilation of procedure \"" ++ fullName ++ "\" failed: argument with no name")
      | some nm =>
        if nm = "" then
          .earlyReturn TCL_ERROR
            ("compilation of procedure \"" ++ fullName ++ "\" failed: argument with no name")
        else if isArrayElemName nm then
          -- cmpWrite.c:2730: `return result` — result is still TCL_OK here
          .earlyReturn TCL_OK
            ("compilation of procedure \"" ++ fullName ++
              "\" failed: formal parameter \"" ++ nm ++ "\" is an array element")
        else
          match processArgSpecs fullName rest (i + 1) with
          | .success locals =>
            .success ({ name := nm, frameIndex := i,
                        hasDefault := fields.length = 2,
                        defaultValue := fields.getD 1 "" } :: locals)
          | r => r

/-- C7: on the argument specifier `{x(0) 1}` the loop builds the
compile-error message naming the procedure and the parameter, but
returns `TCL_OK` (0), not a non-OK result — the caller treats the body
as successfully processed. -/
theorem processArgSpecs_array_elem_returns_ok :
    processArgSpecs "p" [("x(0) 1", ["x(0)", "1"])] 0 =
        .earlyReturn TCL_OK
          "compilation of procedure \"p\" failed: formal parameter \"x(0)\" is an array element" ∧
      TCL_OK ≠ TCL_ERROR := by
  decide

/-! ### C9: the literal-table bracketing of `Compiler_CompileFile`
(cmpWrite.c:482-682)

The interpreter state visible to non-compiling code is modelled by the
literal-interning table (saved at cmpWrite.c:592, restored at
cmpWrite.c:670), the interpreter result object (reset at
cmpWrite.c:495 and overwritten with messages on failures), and the
errorInfo trace (appended with the file/line annotation at
cmpWrite.c:623-624).  The frontend compile (`Compiler_CompileObj` plus
emission) is an arbitrary state transformer; `ioOk` covers the
translate/stat/open/read/close steps that precede the save. -/

structure InterpState where
  literalTable : List String
  resultStr : String
  errorInfo : List String
deriving DecidableEq

/-- The inlined `TclInitLiteralTable` (cmpWrite.c:599-607): a fresh
empty table. -/
def initLiteralTable : List String := []

def compiler_CompileFile (ioOk : Bool)
    (compile : InterpState → Int × InterpState) (retUpdCode : Int)
    (outOpenOk emitOk closeOk : Bool) (fileLineMsg : String)
    (s0 : InterpState) : Int × InterpState :=
  let s := { s0 with resultStr := "" }
  if ioOk then
    let glt := s.literalTable
    let p := compile { s with literalTable := initLiteralTable }
    let q :=
      if p.1 = 2 then (retUpdCode, p.2)
      else if p.1 = TCL_ERROR then
        (TCL_ERROR, { p.2 with errorInfo := p.2.errorInfo ++ [fileLineMsg] })
      else if outOpenOk then
        if emitOk then
          if closeOk then (TCL_OK, p.2)
          else (TCL_ERROR, { p.2 with resultStr := "error closing bytecode stream" })
        else (TCL_ERROR, { p.2 with resultStr := "error writing bytecode stream" })
      else (TCL_ERROR, { p.2 with resultStr := "couldn't create output file" })
    (q.1, { q.2 with literalTable := glt })
  else
    (TCL_ERROR, { s with resultStr := "couldn't read file" })

def s0C9 : InterpState :=
  { literalTable := ["lit"], resultStr := "hello", errorInfo := [] }

/-- C9 counterexample: on a successful compile the returned interpreter
state differs from the entry state — the result object was reset — even
though the literal table is byte-for-byte restored; so "all other
interpreter state is likewise left unchanged" is false. -/
theorem compileFile_changes_interp_result :
    (compiler_CompileFile true (fun s => (0, s)) 0 true true true "m" s0C9).2 ≠ s0C9 ∧
      ((compiler_CompileFile true (fun s => (0, s)) 0 true true true "m" s0C9).2).literalTable =
        s0C9.literalTable := by
  decide

/-- C9 amended: on every return path of `Compiler_CompileFile` — every
outcome of the frontend compile, every I/O failure — the interpreter's
literal-interning table is byte-for-byte equal to its value at entry;
the interpreter result and errorInfo are not part of the bracketing and
may change. -/
theorem compileFile_restores_literalTable (ioOk : Bool)
    (compile : InterpState → Int × InterpState) (retUpdCode : Int)
    (outOpenOk emitOk closeOk : Bool) (fileLineMsg : String) (s0 : InterpState) :
    ((compiler_CompileFile ioOk compile retUpdCode outOpenOk emitOk closeOk
        fileLineMsg s0).2).literalTable = s0.literalTable := by
  rw [compiler_CompileFile]
  by_cases hio : ioOk = true
  · rw [if_pos hio]
  · rw [if_neg hio]

end TclCompiler
